import Mathlib

/-!
Shallow embedding of the hornet-base database engine core, covering the
recovery manager (`Redo`, `Undo`, `Recover`, `Rollback`), the transaction
manager (`Lock`, `Unlock`, `Commit`), the B+-tree cursor
(`StepForward`, `GetEntry`, `TableFind`, `TableFindRange`), the Grace hash
join's depth-equalisation and bucket-probing phases, and the bloom filter.

Machine integers (Go `int64`) are modelled as `Int`; client UUIDs as `Nat`;
table names as `String`.  Stateful Go methods become explicit
state-passing functions; fallible Go functions return `Except String` or
pair their result with an `Option String` error slot when the state also
changes on failure.
-/

namespace HB

/-! ### Database tables

The `db` package is not part of the analysed sources; its command handlers
are modelled from the spec's command table (§6): point insert errors on a
present key, point update and delete error on an absent key. -/

/-- A single table: an association list from `int64` keys to `int64` values. -/
abbrev Table := List (Int × Int)

/-- The database: named tables. -/
abbrev DB := List (String × Table)

/-- Modelled from the spec: `db.HandleCreateTable` creates a fresh empty
table with the given name, failing if the name is taken. -/
def DB.handleCreateTable (d : DB) (name : String) : Except String DB :=
  if (d.lookup name).isSome then .error "table already exists"
  else .ok (d ++ [(name, [])])

/-- Replace the table `name` by `tbl` in the database. -/
def DB.setTable (d : DB) (name : String) (tbl : Table) : DB :=
  d.map fun p => if p.1 = name then (name, tbl) else p

/-- Modelled from the spec: `db.HandleInsert` — point insert, error if the
key already exists (§6) or the table is absent. -/
def DB.handleInsert (d : DB) (name : String) (key val : Int) : Except String DB :=
  match d.lookup name with
  | none => .error "table not found"
  | some tbl =>
    if (tbl.lookup key).isSome then .error "key already exists"
    else .ok (d.setTable name ((key, val) :: tbl))

/-- Modelled from the spec: `db.HandleUpdate` — point update, error if the
key is absent (§6) or the table is absent. -/
def DB.handleUpdate (d : DB) (name : String) (key val : Int) : Except String DB :=
  match d.lookup name with
  | none => .error "table not found"
  | some tbl =>
    if (tbl.lookup key).isSome then
      .ok (d.setTable name (tbl.map fun e => if e.1 = key then (key, val) else e))
    else .error "key not found"

/-- Modelled from the spec: `db.HandleDelete` — point delete, error if the
key is absent (§6) or the table is absent. -/
def DB.handleDelete (d : DB) (name : String) (key : Int) : Except String DB :=
  match d.lookup name with
  | none => .error "table not found"
  | some tbl =>
    if (tbl.lookup key).isSome then
      .ok (d.setTable name (tbl.filter fun e => decide (e.1 ≠ key)))
    else .error "key not found"

/-- Modelled from the spec: `find <k> from <name>` — returns the value or
absence (§6). -/
def DB.find (d : DB) (name : String) (key : Int) : Option Int :=
  match d.lookup name with
  | none => none
  | some tbl => tbl.lookup key

/-! ### Log records (recovery package) -/

/-- Edit actions, from the recovery package's `Action`
(`INSERT_ACTION`, `UPDATE_ACTION`, `DELETE_ACTION`). -/
inductive Action where
  | insert
  | update
  | delete
deriving DecidableEq, Repr

/-- Log records: `tableLog`, `editLog`, `startLog`, `commitLog`,
`checkpointLog`.  Client UUIDs are modelled as `Nat`. -/
inductive LogRec where
  | table (tblType tblName : String)
  | edit (id : Nat) (tablename : String) (action : Action) (key oldval newval : Int)
  | start (id : Nat)
  | commit (id : Nat)
  | checkpoint (ids : List Nat)
deriving DecidableEq, Repr

/-- `RecoveryManager.Redo`: redo a given log's action.  A table log replays
the creation; an edit log replays the edit with the fallback chain from the
source (insert falls back to update on failure, update falls back to insert
on failure, delete is as-is); other records are an error. -/
def Redo (d : DB) (log : LogRec) : Except String DB :=
  match log with
  | .table _tblType tblName => d.handleCreateTable tblName
  | .edit _id tablename action key _oldval newval =>
    match action with
    | .insert =>
      match d.handleInsert tablename key newval with
      | .ok d2 => .ok d2
      | .error _ =>
        -- There is already an entry, try updating
        d.handleUpdate tablename key newval
    | .update =>
      match d.handleUpdate tablename key newval with
      | .ok d2 => .ok d2
      | .error _ =>
        -- Entry may have been deleted, try inserting
        d.handleInsert tablename key newval
    | .delete => d.handleDelete tablename key
  | _ => .error "can only redo edit logs"

/-- `RecoveryManager.Undo`: undo a given log's action by applying its
inverse (insert → delete, update → update with the old value, delete →
insert with the old value).  The recovery-level handlers it calls
(`HandleDelete`/`HandleUpdate`/`HandleInsert`) additionally take locks
through the transaction manager and append log records; only their effect
on the table state is modelled here. -/
def Undo (d : DB) (log : LogRec) : Except String DB :=
  match log with
  | .edit _id tablename action key oldval _newval =>
    match action with
    | .insert => d.handleDelete tablename key
    | .update => d.handleUpdate tablename key oldval
    | .delete => d.handleInsert tablename key oldval
  | _ => .error "can only undo edit logs"

/-! ### Concurrency: lock manager, waits-for graph, transaction manager

The `Transaction` / `TransactionManager` code is `pkg/concurrency/transaction.go`.
The lock manager and the precedence `Graph` live in other files of that
package that are not among the analysed sources; they are modelled from the
spec (§4.4 lock-state table, §9 adjacency-map waits-for graph with DFS
cycle detection). -/

/-- Lock modes: `R_LOCK` and `W_LOCK`. -/
inductive LockType where
  | R
  | W
deriving DecidableEq, Repr

/-- A lockable resource: `(tableName, resourceKey)`; equality is by both
fields. -/
structure Resource where
  tableName : String
  resourceKey : Int
deriving DecidableEq, Repr

/-- Modelled from the spec: the lock manager's per-resource lock state —
current mode and holder count (§4.4).  Blocking of incompatible requests is
a real-time behaviour and is not modelled; an incompatible request leaves
the state unchanged here, which is sound for the claims below because none
of them depends on a blocked acquisition. -/
abbrev LMState := List (Resource × (LockType × Nat))

/-- Modelled from the spec: `LockManager.Lock` — grant if unheld, or if
held shared and requested shared (§4.4). -/
def LMState.lock (lm : LMState) (r : Resource) (mode : LockType) : LMState :=
  match lm.lookup r with
  | none => (r, (mode, 1)) :: lm
  | some (.R, n) =>
    match mode with
    | .R => (r, (.R, n + 1)) :: lm.filter fun p => decide (p.1 ≠ r)
    | .W => lm
  | some (.W, _) => lm

/-- Modelled from the spec: `LockManager.Unlock` — release one holder,
dropping the entry when the count reaches zero (§4.4). -/
def LMState.unlock (lm : LMState) (r : Resource) (_mode : LockType) : LMState :=
  match lm.lookup r with
  | none => lm
  | some (_, n) =>
    if n ≤ 1 then lm.filter fun p => decide (p.1 ≠ r)
    else
      match lm.lookup r with
      | some (m, _) => (r, (m, n - 1)) :: lm.filter fun p => decide (p.1 ≠ r)
      | none => lm

/-- Modelled from the spec: the waits-for `Graph`, stored as a list of
directed edges between transaction identifiers (§9: adjacency keyed by
transaction id).  `AddEdge` prepends an edge, `RemoveEdge` removes one
occurrence. -/
abbrev Graph := List (Nat × Nat)

/-- Modelled from the spec: `Graph.AddEdge`. -/
def Graph.addEdge (g : Graph) (src dst : Nat) : Graph := (src, dst) :: g

/-- Modelled from the spec: `Graph.RemoveEdge` — remove one occurrence of
the edge. -/
def Graph.removeEdge (g : Graph) (src dst : Nat) : Graph := g.erase (src, dst)

/-- Successors of a vertex. -/
def Graph.succs (g : Graph) (v : Nat) : List Nat :=
  g.filterMap fun e => if e.1 = v then some e.2 else none

/-- Fuel-bounded reachability by at least one edge. -/
def Graph.reachN (g : Graph) : Nat → Nat → Nat → Bool
  | 0, _, _ => false
  | fuel + 1, src, dst =>
    ((g.succs src).contains dst) ||
      (g.succs src).any fun s => g.reachN fuel s dst

/-- Modelled from the spec: `Graph.DetectCycle` — depth-first search for a
cycle (§9); a cycle exists iff some vertex reaches itself in at least one
step.  The fuel `2 * g.length + 1` bounds the length of a simple path. -/
def Graph.detectCycle (g : Graph) : Bool :=
  g.any fun e => g.reachN (2 * g.length + 1) e.1 e.1

/-- A transaction: client id plus the map of resources it has locked
(`Transaction` in transaction.go). -/
structure Transaction where
  clientId : Nat
  resources : List (Resource × LockType)
deriving DecidableEq, Repr

/-- The transaction manager's state: the running transactions keyed by
client id, the precedence graph and the lock manager
(`TransactionManager` in transaction.go). -/
structure TM where
  transactions : List (Nat × Transaction)
  pGraph : Graph
  lm : LMState
deriving DecidableEq, Repr

/-- `TransactionManager.GetTransaction`. -/
def TM.GetTransaction (tm : TM) (clientId : Nat) : Option Transaction :=
  tm.transactions.lookup clientId

/-- `TransactionManager.Begin`: error if the client already has a
transaction, else install a fresh one with no resources. -/
def TM.Begin (tm : TM) (clientId : Nat) : TM × Option String :=
  match tm.transactions.lookup clientId with
  | some _ => (tm, some "transaction already began")
  | none =>
    ({ tm with transactions :=
        tm.transactions ++ [(clientId, ⟨clientId, []⟩)] }, none)

/-- `TransactionManager.discoverTransactions`: all transactions holding the
resource in a mode conflicting with the requested one (either side
exclusive).  Returns their client ids, in transaction-map order, each at
most once. -/
def TM.discoverTransactions (tm : TM) (r : Resource) (lType : LockType) : List Nat :=
  tm.transactions.foldl
    (fun ret p =>
      if p.2.resources.any
          (fun sr => sr.1 = r ∧ (sr.2 = LockType.W ∨ lType = LockType.W)) then
        ret ++ [p.2.clientId]
      else ret)
    []

/-- Write back a transaction into the manager's map under its client id. -/
def TM.setTransaction (tm : TM) (t : Transaction) : TM :=
  { tm with transactions :=
      tm.transactions.map fun p => if p.1 = t.clientId then (t.clientId, t) else p }

/-- `TransactionManager.Lock`: idempotent success if the resource is
already held (error on a shared→exclusive upgrade attempt); otherwise add
waits-for edges to every conflicting holder, fail with a deadlock error
(removing the added edges) if the graph now has a cycle, else record and
take the lock and remove the added edges.  Returns the new state together
with an optional error. -/
def TM.Lock (tm : TM) (clientId : Nat) (tableName : String) (resourceKey : Int)
    (lType : LockType) : TM × Option String :=
  match tm.GetTransaction clientId with
  | none => (tm, some "transaction not found")
  | some t =>
    let resource : Resource := ⟨tableName, resourceKey⟩
    match t.resources.lookup resource with
    | some lockType =>
      if lockType = .R ∧ lType = .W then
        (tm, some "transaction does not have rights to the resource")
      else (tm, none)
    | none =>
      let depTransactions := tm.discoverTransactions resource lType
      let g1 := depTransactions.foldl (fun g u => g.addEdge t.clientId u) tm.pGraph
      if g1.detectCycle then
        let g2 := depTransactions.foldl (fun g u => g.removeEdge t.clientId u) g1
        ({ tm with pGraph := g2 }, some "deadlock detected")
      else
        let t2 : Transaction := { t with resources := (resource, lType) :: t.resources }
        let tm2 := (tm.setTransaction t2)
        let tm3 := { tm2 with lm := tm2.lm.lock resource lType, pGraph := g1 }
        let g2 := depTransactions.foldl (fun g u => g.removeEdge t.clientId u) tm3.pGraph
        ({ tm3 with pGraph := g2 }, none)

/-- `TransactionManager.Unlock`: error if the transaction or the resource
is not found or the held mode differs from the requested one; otherwise
remove the resource from the transaction and release it in the lock
manager. -/
def TM.Unlock (tm : TM) (clientId : Nat) (tableName : String) (resourceKey : Int)
    (lType : LockType) : TM × Option String :=
  match tm.GetTransaction clientId with
  | none => (tm, some "transaction to unlock not found")
  | some t =>
    let resource : Resource := ⟨tableName, resourceKey⟩
    match t.resources.lookup resource with
    | none => (tm, some "resource to unlock not found")
    | some lockType =>
      if lockType ≠ lType then (tm, some "lock type does not match")
      else
        let t2 : Transaction :=
          { t with resources := t.resources.filter fun p => decide (p.1 ≠ resource) }
        let tm2 := tm.setTransaction t2
        ({ tm2 with lm := tm2.lm.unlock resource lockType }, none)

/-- `TransactionManager.Commit`: release every lock held by the
transaction, then remove it from the running-transactions map; error if the
client has no transaction. -/
def TM.Commit (tm : TM) (clientId : Nat) : TM × Option String :=
  match tm.transactions.lookup clientId with
  | none => (tm, some "no transactions running")
  | some t =>
    let lm2 := t.resources.foldl (fun lm p => lm.unlock p.1 p.2) tm.lm
    let txs2 := tm.transactions.filter fun p => decide (p.1 ≠ clientId)
    ({ tm with lm := lm2, transactions := txs2 }, none)

/-! ### Recovery manager state, `Recover` and `Rollback`

`RecoveryManager.txStack` maps a client id to the in-memory stack of its
log records.  `Start` seeds the stack with `make([]Log, 1)` — a slice
holding one `nil` element — before appending the start record, so the
stack is modelled as a list of `Option LogRec` with `none` for that `nil`
slot (the rollback loop never looks at index 0). -/

/-- The recovery manager's in-memory state (the log file and database
handles are passed separately). -/
structure RM where
  txStack : List (Nat × List (Option LogRec))
deriving DecidableEq, Repr

/-- Overwrite (or create) a client's stack. -/
def RM.setStack (rm : RM) (clientId : Nat) (stack : List (Option LogRec)) : RM :=
  ⟨(rm.txStack.filter fun p => decide (p.1 ≠ clientId)) ++ [(clientId, stack)]⟩

/-- `RecoveryManager.Start`: write a start record and seed the client's
stack with a `nil` slot followed by the start record. -/
def RM.Start (rm : RM) (clientId : Nat) : RM :=
  rm.setStack clientId [none, some (.start clientId)]

/-- `RecoveryManager.Edit`: write an edit record and push it on the
client's stack. -/
def RM.Edit (rm : RM) (clientId : Nat) (tablename : String) (action : Action)
    (key oldval newval : Int) : RM :=
  let old := (rm.txStack.lookup clientId).getD []
  rm.setStack clientId (old ++ [some (.edit clientId tablename action key oldval newval)])

/-- `RecoveryManager.Commit`: write a commit record (the file write is not
modelled) and drop the client's stack. -/
def RM.Commit (rm : RM) (clientId : Nat) : RM :=
  ⟨rm.txStack.filter fun p => decide (p.1 ≠ clientId)⟩

/-- The state `Recover` and `Rollback` act on: the database tables, the
transaction manager and the recovery manager. -/
structure Sys where
  db : DB
  tm : TM
  rm : RM
deriving DecidableEq, Repr

/-- Keep the old database when an (ignored) redo or undo error occurs. -/
def dbOr (d : DB) : Except String DB → DB
  | .ok d2 => d2
  | .error _ => d

/-- `activeTxs[id] = true` on a map modelled as a list of keys. -/
def setInsert (l : List Nat) (x : Nat) : List Nat :=
  if l.contains x then l else l ++ [x]

/-- `delete(activeTxs, id)`. -/
def setRemove (l : List Nat) (x : Nat) : List Nat :=
  l.filter fun y => decide (y ≠ x)

/-- One iteration of `Recover`'s redo loop: table and edit records are
redone (errors discarded, as in the source), start records begin the
transaction and join the active set, commit records leave the active set
and commit in both managers; checkpoint records do nothing. -/
def redoStep (st : Sys × List Nat) (log : LogRec) : Sys × List Nat :=
  let s := st.1
  let active := st.2
  match log with
  | .table _ _ => ({ s with db := dbOr s.db (Redo s.db log) }, active)
  | .edit _ _ _ _ _ _ => ({ s with db := dbOr s.db (Redo s.db log) }, active)
  | .start id => ({ s with tm := (s.tm.Begin id).1 }, setInsert active id)
  | .commit id =>
    let s2 := { s with rm := s.rm.Commit id }
    ({ s2 with tm := (s2.tm.Commit id).1 }, setRemove active id)
  | .checkpoint _ => (s, active)

/-- One iteration of `Recover`'s undo loop (the log list is traversed in
reverse): edit records of still-active transactions are undone (errors
discarded, as in the source); on the start record of an active transaction
a compensating commit goes to both managers; everything else is skipped. -/
def undoStep (st : Sys × List Nat) (log : LogRec) : Sys × List Nat :=
  let s := st.1
  let active := st.2
  match log with
  | .edit id _ _ _ _ _ =>
    if active.contains id then ({ s with db := dbOr s.db (Undo s.db log) }, active)
    else st
  | .start id =>
    if active.contains id then
      let s2 := { s with rm := s.rm.Commit id }
      ({ s2 with tm := (s2.tm.Commit id).1 }, active)
    else st
  | _ => st

/-- `RecoveryManager.Recover`: full recovery on startup.  `readLogs` is not
among the analysed sources; modelled from the spec, it parses all records
in order, so `logs` is the whole log and `checkpointPos` the index of the
last checkpoint record (0 when there is none).  If the record at
`checkpointPos` is a checkpoint, its transactions seed the active set and
are begun in the transaction manager; then the redo loop runs forward from
`checkpointPos`, and the undo loop runs backward over the whole log. -/
def Recover (logs : List LogRec) (checkpointPos : Nat) (s : Sys) : Sys :=
  let init : Sys × List Nat :=
    match logs.get? checkpointPos with
    | some (.checkpoint ids) =>
      ids.foldl
        (fun st id => ({ st.1 with tm := (st.1.tm.Begin id).1 }, setInsert st.2 id))
        (s, [])
    | _ => (s, [])
  let afterRedo := (logs.drop checkpointPos).foldl redoStep init
  let afterUndo := logs.reverse.foldl undoStep afterRedo
  afterUndo.1

/-- `Rollback`'s loop over the stack, already restricted to indices ≥ 1 and
reversed (newest first): skip anything that is not an edit record, undo
edit records, stopping with the error if an undo fails. -/
def rollbackLoop (d : DB) : List (Option LogRec) → DB × Option String
  | [] => (d, none)
  | l :: rest =>
    match l with
    | some (.edit id tn a k o n) =>
      match Undo d (.edit id tn a k o n) with
      | .ok d2 => rollbackLoop d2 rest
      | .error e => (d, some e)
    | _ => rollbackLoop d rest

/-- `RecoveryManager.Rollback`: error if the client has no stack; else walk
the stack from its last index down to index 1, undoing every edit record,
then commit the transaction in the recovery manager and the transaction
manager. -/
def Rollback (s : Sys) (clientId : Nat) : Sys × Option String :=
  match s.rm.txStack.lookup clientId with
  | none => (s, some "transaction not found")
  | some logs =>
    match rollbackLoop s.db ((logs.drop 1).reverse) with
    | (d2, some e) => ({ s with db := d2 }, some e)
    | (d2, none) =>
      let s2 := { s with db := d2, rm := s.rm.Commit clientId }
      ({ s2 with tm := (s2.tm.Commit clientId).1 }, none)

/-! ### B+-tree leaves and cursors

Cursors only ever touch leaf pages, so the pager is modelled as the list
of leaf pages in left-to-right order; a right-sibling page number is an
index into that list (`-1` at the rightmost leaf, as in the source). -/

/-- A leaf node: its sorted cells and the right sibling's page number. -/
structure LeafNode where
  rightSiblingPN : Int
  entries : List (Int × Int)
deriving DecidableEq, Repr, Inhabited

/-- `numKeys`, kept as `int64` for the source's comparisons. -/
def LeafNode.numKeys (lf : LeafNode) : Int := lf.entries.length

/-- `Pager.GetPage`: fails on an out-of-range page number. -/
def getPage (pager : List LeafNode) (pn : Int) : Option LeafNode :=
  if pn < 0 then none else pager.get? pn.toNat

/-- `BTreeCursor`: cell number within the current leaf, the stale
end-of-table flag set at creation time, and the current leaf. -/
structure BTreeCursor where
  cellnum : Int
  isEnd : Bool
  curNode : LeafNode
deriving DecidableEq, Repr

/-- `BTreeCursor.StepForward`: advance within the leaf, or move to the
right sibling (reporting `true` with the cursor unchanged past the
rightmost leaf or on a page fault), skipping empty leaves recursively.
The Go recursion is bounded by the sibling chain; `fuel` makes it
structural, and every use below passes `pager.length + 1`, which the chain
cannot exhaust. -/
def StepForward (pager : List LeafNode) : Nat → BTreeCursor → Bool × BTreeCursor
  | 0, cursor => (true, cursor)
  | fuel + 1, cursor =>
    if cursor.cellnum + 1 ≥ cursor.curNode.numKeys then
      let nextPN := cursor.curNode.rightSiblingPN
      if nextPN < 0 then (true, cursor)
      else
        match getPage pager nextPN with
        | none => (true, cursor)
        | some nextNode =>
          let cursor2 : BTreeCursor := { cursor with cellnum := 0, curNode := nextNode }
          if cursor2.cellnum = nextNode.numKeys then StepForward pager fuel cursor2
          else (false, cursor2)
    else (false, { cursor with cellnum := cursor.cellnum + 1 })

/-- `BTreeCursor.IsEnd`. -/
def BTreeCursor.IsEnd (cursor : BTreeCursor) : Bool := cursor.isEnd

/-- `BTreeCursor.GetEntry`: error iff the `isEnd` flag is set, else read
the cell at `cellnum`; an out-of-range `cellnum` reads whatever stale
bytes sit in the page, modelled by the default cell `(0, 0)`. -/
def GetEntry (cursor : BTreeCursor) : Except String (Int × Int) :=
  if cursor.isEnd then .error "getEntry: entry is non-existent"
  else .ok (cursor.curNode.entries.getD cursor.cellnum.toNat (0, 0))

/-- Modelled from the spec: the leaf `keyToNodeEntry` descends to — the
first leaf holding a key ≥ the search key, or the rightmost leaf when
there is none (the key would be appended there). -/
def findLeafIdx (pager : List LeafNode) (key : Int) : Nat :=
  match pager.findIdx? (fun lf => lf.entries.any fun e => key ≤ e.1) with
  | some i => i
  | none => pager.length - 1

/-- `BTreeIndex.TableFind`: a cursor at the key's position, or at the
insertion position when absent (`keyToNodeEntry` is not among the analysed
sources and is modelled from the spec); `isEnd` is set iff the insertion
position is one past the leaf's cells.  `none` models the page-fault error
path (empty pager). -/
def TableFind (pager : List LeafNode) (key : Int) : Option BTreeCursor :=
  match pager.get? (findLeafIdx pager key) with
  | none => none
  | some leaf =>
    let cellnum := leaf.entries.findIdx fun e => decide (key ≤ e.1)
    some { cellnum := (cellnum : Int),
           isEnd := decide (cellnum = leaf.entries.length),
           curNode := leaf }

/-- The loop of `TableFindRange`: while `endKey > curEntry.GetKey()` and
the (stale) `IsEnd` flag is unset, append the current entry, step forward
(the step's return value is discarded, as in the source) and re-read the
entry, surfacing a `GetEntry` error together with the entries collected so
far.  `fuel` counts loop iterations; `none` models non-termination. -/
def rangeLoop (pager : List LeafNode) :
    Nat → Int → BTreeCursor → (Int × Int) → List (Int × Int) →
    Option (List (Int × Int) × Option String)
  | 0, _, _, _, _ => none
  | fuel + 1, endKey, cursor, curEntry, entries =>
    if endKey > curEntry.1 ∧ cursor.IsEnd = false then
      let entries2 := entries ++ [curEntry]
      let cursor2 := (StepForward pager (pager.length + 1) cursor).2
      match GetEntry cursor2 with
      | .error e => some (entries2, some e)
      | .ok e2 => rangeLoop pager fuel endKey cursor2 e2 entries2
    else some (entries, none)

/-- `BTreeIndex.TableFindRange`: position a cursor at `startKey`, read the
first entry (returning the empty list with the error if that fails), then
run the collection loop.  The result is `none` when the loop diverges. -/
def TableFindRange (pager : List LeafNode) (startKey endKey : Int) (fuel : Nat) :
    Option (List (Int × Int) × Option String) :=
  match TableFind pager startKey with
  | none => some ([], some "table find failed")
  | some cursor =>
    match GetEntry cursor with
    | .error e => some ([], some e)
    | .ok curEntry => rangeLoop pager fuel endKey cursor curEntry []

/-! ### Grace hash join: depth equalisation and bucket probing -/

/-- The part of an extendible hash table `Join` looks at: the global depth
and the directory of bucket page numbers. -/
structure HashTable where
  depth : Nat
  buckets : List Int
deriving DecidableEq, Repr

/-- Modelled from the spec: `HashTable.ExtendTable` doubles the directory
— duplicating every slot — and increments the global depth, splitting no
bucket (§4.3). -/
def HashTable.ExtendTable (t : HashTable) : HashTable :=
  ⟨t.depth + 1, t.buckets ++ t.buckets⟩

/-- Modelled from the spec: `HashTable.GetDepth`. -/
def HashTable.GetDepth (t : HashTable) : Nat := t.depth

/-- The depth-equalisation loop of `Join`: while the global depths differ,
extend the table with the smaller depth. -/
def equalizeDepths (l r : HashTable) : HashTable × HashTable :=
  if l.GetDepth = r.GetDepth then (l, r)
  else if l.GetDepth < r.GetDepth then equalizeDepths l.ExtendTable r
  else equalizeDepths l r.ExtendTable
termination_by (l.depth - r.depth) + (r.depth - l.depth)
decreasing_by
  all_goals simp [HashTable.ExtendTable, HashTable.GetDepth] at *
  all_goals omega

/-- The probe loop of `Join` over the zipped directories: a (left, right)
bucket page-number pair already in `seenList` is skipped, any other pair
is recorded as seen and probed. -/
def probeLoop : List (Int × Int) → List (Int × Int) → List (Int × Int) → List (Int × Int)
  | [], _seen, probed => probed
  | p :: rest, seen, probed =>
    if p ∈ seen then probeLoop rest seen probed
    else probeLoop rest (p :: seen) (probed ++ [p])

/-- The page-number pairs `Join` hands to `probeBuckets`, in order: the
equal-indexed directory slots, deduplicated by `seenList`. -/
def probedPairs (leftBuckets rightBuckets : List Int) : List (Int × Int) :=
  probeLoop (leftBuckets.zip rightBuckets) [] []

/-! ### Bloom filter

The two hashers (`hash.XxHasher`, `hash.MurmurHasher`) are not among the
analysed sources; they are passed as parameters below — every property
proved holds for arbitrary hash functions. -/

/-- `BloomFilter`: its size and the set of set bit positions. -/
structure BloomFilter where
  size : Int
  bits : Finset ℕ
deriving DecidableEq

/-- `CreateFilter`: a bitset of the given size with no bit set. -/
def CreateFilter (size : Int) : BloomFilter := ⟨size, ∅⟩

/-- `BloomFilter.Insert`: set the bits at the two hash values of the key. -/
def BloomFilter.Insert (xxHasher murmurHasher : Int → Int → ℕ)
    (filter : BloomFilter) (key : Int) : BloomFilter :=
  let h1 := xxHasher key filter.size
  let h2 := murmurHasher key filter.size
  { filter with bits := insert h2 (insert h1 filter.bits) }

/-- `BloomFilter.Contains`: test the bits at the two hash values of the
key.  The Go method only reads the filter; the returned filter makes that
explicit. -/
def BloomFilter.Contains (xxHasher murmurHasher : Int → Int → ℕ)
    (filter : BloomFilter) (key : Int) : Bool × BloomFilter :=
  let h1 := xxHasher key filter.size
  let h2 := murmurHasher key filter.size
  (decide (h1 ∈ filter.bits) && decide (h2 ∈ filter.bits), filter)

/-! ## Concrete scenarios used by counterexamples and witnesses -/

/-- The crash scenario of claim C1: Begin T (id 7), insert (1,100),
checkpoint, insert (2,200), then the process dies. -/
def recoverLogsEx : List LogRec :=
  [.start 7, .edit 7 "t" .insert 1 0 100, .checkpoint [7], .edit 7 "t" .insert 2 0 200]

/-- The state `Recover` starts from in that scenario: the snapshot taken at
the checkpoint (key 1 was flushed), fresh managers. -/
def recoverSysEx : Sys :=
  { db := [("t", [(1, 100)])], tm := ⟨[], [], []⟩, rm := ⟨[]⟩ }

/-- A manager in which transaction 1 is the only holder of resource
`("t",5)`, in shared mode. -/
def tmSoleReader : TM :=
  ⟨[(1, ⟨1, [(⟨"t", 5⟩, .R)]⟩)], [], [(⟨"t", 5⟩, (.R, 1))]⟩

/-- A manager heading for deadlock: transaction 1 holds `("t",5)`
exclusively, transaction 2 holds `("t",6)` exclusively, and the waits-for
graph already records 2 → 1. -/
def tmDeadlock : TM :=
  ⟨[(1, ⟨1, [(⟨"t", 5⟩, .W)]⟩), (2, ⟨2, [(⟨"t", 6⟩, .W)]⟩)], [(2, 1)], []⟩

/-! ## C1 -/

/-- Claim C1 is false on the code: in the scenario Begin T, insert (1,100),
checkpoint, insert (2,200), crash, recovery does *not* leave `find 1 = 100`
— the undo loop runs over the whole log, so T's pre-checkpoint insert of
key 1 is also undone. -/
theorem C1_counterexample :
    ¬ (Recover recoverLogsEx 2 recoverSysEx).db.find "t" 1 = some 100 := by
  decide

/-- C1 amended: recovery restores the checkpoint snapshot and then undoes
*all* of the active transaction T's edits — those after and also those
before the checkpoint, since the undo pass scans back to the start of the
log — so afterwards both `find 1` and `find 2` report absence, and T is
committed away in both managers. -/
theorem C1_amended_recover_undoes_all_active_edits :
    (Recover recoverLogsEx 2 recoverSysEx).db.find "t" 1 = none ∧
    (Recover recoverLogsEx 2 recoverSysEx).db.find "t" 2 = none ∧
    (Recover recoverLogsEx 2 recoverSysEx).tm.transactions.lookup 7 = none ∧
    (Recover recoverLogsEx 2 recoverSysEx).rm.txStack.lookup 7 = none := by
  decide

/-! ## C2 -/

/-- Claim C2 is false on the code: transaction 1 holds `("t",5)` shared and
is its only holder, yet its exclusive re-request fails — `Lock` rejects
every shared→exclusive upgrade without looking at other holders. -/
theorem C2_counterexample :
    TM.Lock tmSoleReader 1 "t" 5 .W =
      (tmSoleReader, some "transaction does not have rights to the resource") := by
  decide

/-- C2 amended: a `Lock` request in exclusive mode by a transaction that
holds the resource in shared mode fails with an error even when it is the
only holder (no shared→exclusive upgrade is supported); same-mode
re-acquisition of an already-held resource returns success without
changing any state. -/
theorem C2_amended_no_upgrade_samemode_idempotent
    (tm : TM) (clientId : Nat) (tn : String) (k : Int) (t : Transaction)
    (hfound : tm.GetTransaction clientId = some t) :
    (t.resources.lookup ⟨tn, k⟩ = some .R →
      tm.Lock clientId tn k .W =
        (tm, some "transaction does not have rights to the resource")) ∧
    (∀ m : LockType, t.resources.lookup ⟨tn, k⟩ = some m →
      tm.Lock clientId tn k m = (tm, none)) := by
  constructor
  · intro hres
    simp [TM.Lock, hfound, hres]
  · intro m hres
    cases m <;> simp [TM.Lock, hfound, hres]

/-- Witness for C2's amended theorem: in `tmSoleReader`, the upgrade
request errors and the same-mode request is an unchanged success. -/
theorem C2_amended_witness :
    TM.Lock tmSoleReader 1 "t" 5 .W =
      (tmSoleReader, some "transaction does not have rights to the resource") ∧
    TM.Lock tmSoleReader 1 "t" 5 .R = (tmSoleReader, none) := by
  have h := C2_amended_no_upgrade_samemode_idempotent tmSoleReader 1 "t" 5
    ⟨1, [(⟨"t", 5⟩, .R)]⟩ (by decide)
  exact ⟨h.1 (by decide), h.2 .R (by decide)⟩

/-! ## C3 and its graph lemmas -/

/-- Accumulating `foldl` over a conditional append is filter-then-map. -/
theorem foldl_filter_append {α β : Type} (cond : α → Bool) (f : α → β) :
    ∀ (l : List α) (acc : List β),
      l.foldl (fun ret p => if cond p then ret ++ [f p] else ret) acc
        = acc ++ (l.filter cond).map f
  | [], acc => by simp
  | p :: l, acc => by
    by_cases h : cond p <;>
      simp [List.foldl_cons, h, foldl_filter_append cond f l]

/-- `discoverTransactions` written as filter-then-map over the
transactions map. -/
theorem discoverTransactions_eq (tm : TM) (r : Resource) (lType : LockType) :
    tm.discoverTransactions r lType
      = ((tm.transactions.filter fun p =>
            p.2.resources.any fun sr =>
              decide (sr.1 = r ∧ (sr.2 = LockType.W ∨ lType = LockType.W))).map
          fun p => p.2.clientId) := by
  have h := foldl_filter_append
    (fun p : Nat × Transaction =>
      p.2.resources.any fun sr =>
        decide (sr.1 = r ∧ (sr.2 = LockType.W ∨ lType = LockType.W)))
    (fun p => p.2.clientId) tm.transactions []
  rw [List.nil_append] at h
  exact h

/-- If the client ids in the transactions map are distinct, so are the ids
`discoverTransactions` returns. -/
theorem discoverTransactions_nodup (tm : TM) (r : Resource) (lType : LockType)
    (hids : (tm.transactions.map fun p => p.2.clientId).Nodup) :
    (tm.discoverTransactions r lType).Nodup := by
  rw [discoverTransactions_eq]
  exact hids.sublist ((List.filter_sublist _).map _)

/-- Folding `addEdge` prepends the reversed edges. -/
theorem foldl_addEdge_eq (c : Nat) :
    ∀ (ds : List Nat) (g : Graph),
      ds.foldl (fun g u => Graph.addEdge g c u) g
        = (ds.reverse.map fun u => (c, u)) ++ g
  | [], g => by simp
  | d :: ds, g => by
    show ds.foldl _ (Graph.addEdge g c d) = _
    rw [foldl_addEdge_eq c ds]
    simp [Graph.addEdge]

/-- Removing the edges just added restores the graph exactly, provided the
added targets are distinct. -/
theorem foldl_removeEdge_addEdge (c : Nat) :
    ∀ (ds : List Nat) (g : Graph), ds.Nodup →
      ds.foldl (fun g u => Graph.removeEdge g c u)
        (ds.foldl (fun g u => Graph.addEdge g c u) g) = g
  | [], g, _ => by simp
  | d :: ds, g, h => by
    have hd : d ∉ ds := (List.nodup_cons.mp h).1
    have hds : ds.Nodup := (List.nodup_cons.mp h).2
    have hmem : (c, d) ∉ ds.reverse.map fun u => (c, u) := by
      simp only [List.mem_map, List.mem_reverse]
      rintro ⟨u, hu, he⟩
      exact hd (by cases he; exact hu)
    calc ds.foldl (fun g u => Graph.removeEdge g c u)
          ((ds.foldl (fun g u => Graph.addEdge g c u) (Graph.addEdge g c d)).erase (c, d))
        = ds.foldl (fun g u => Graph.removeEdge g c u)
            (ds.foldl (fun g u => Graph.addEdge g c u) g) := by
          rw [foldl_addEdge_eq, foldl_addEdge_eq,
            List.erase_append_right _ hmem]
          simp [Graph.addEdge]
      _ = g := foldl_removeEdge_addEdge c ds g hds

/-- C3: when adding the waits-for edges for the conflicting holders
creates a cycle, `Lock` fails with the deadlock error and the whole
manager state — waits-for graph, every transaction's resource map and the
lock manager — is exactly as before the call. -/
theorem C3_deadlock_error_is_atomic (tm : TM) (clientId : Nat) (tn : String) (k : Int)
    (lType : LockType) (t : Transaction)
    (hids : (tm.transactions.map fun p => p.2.clientId).Nodup)
    (hfound : tm.GetTransaction clientId = some t)
    (hnotheld : t.resources.lookup ⟨tn, k⟩ = none)
    (hcycle : Graph.detectCycle
      ((tm.discoverTransactions ⟨tn, k⟩ lType).foldl
        (fun g u => g.addEdge t.clientId u) tm.pGraph) = true) :
    tm.Lock clientId tn k lType = (tm, some "deadlock detected") := by
  have hnd := discoverTransactions_nodup tm ⟨tn, k⟩ lType hids
  simp only [TM.Lock, hfound, hnotheld, hcycle, if_true]
  rw [foldl_removeEdge_addEdge _ _ _ hnd]

/-- Witness for C3: in `tmDeadlock`, transaction 1's exclusive request for
`("t",6)` closes the cycle 1 → 2 → 1 and fails leaving the state intact. -/
theorem C3_witness :
    TM.Lock tmDeadlock 1 "t" 6 .W = (tmDeadlock, some "deadlock detected") :=
  C3_deadlock_error_is_atomic tmDeadlock 1 "t" 6 .W ⟨1, [(⟨"t", 5⟩, .W)]⟩
    (by decide) (by decide) (by decide) (by decide)

/-! ## C4 -/

/-- A single (rightmost) leaf holding one entry. -/
def leafEx : LeafNode := ⟨-1, [(1, 10)]⟩

/-- A mid-iteration cursor on `leafEx`. -/
def cursorEx : BTreeCursor := ⟨0, false, leafEx⟩

/-- `StepForward` never writes the `isEnd` flag. -/
theorem StepForward_isEnd (pager : List LeafNode) :
    ∀ (fuel : Nat) (c : BTreeCursor), ((StepForward pager fuel c).2).isEnd = c.isEnd
  | 0, _ => rfl
  | fuel + 1, c => by
    simp only [StepForward]
    split
    · split
      · rfl
      · split
        · rfl
        · split
          · exact StepForward_isEnd pager fuel _
          · rfl
    · rfl

/-- `GetEntry` succeeds exactly when the `isEnd` flag is unset. -/
theorem GetEntry_isOk (c : BTreeCursor) : (GetEntry c).toOption.isSome = !c.isEnd := by
  cases h : c.isEnd <;> simp [GetEntry, h, Except.toOption]

/-- Claim C4 is false on the code: on a one-leaf table, `StepForward` from
the last entry reports `true` (stepped past the rightmost leaf), yet the
following `GetEntry` still succeeds, returning the same entry — the
`isEnd` flag the error check looks at is never set by `StepForward`. -/
theorem C4_counterexample :
    (StepForward [leafEx] 2 cursorEx).1 = true ∧
    GetEntry (StepForward [leafEx] 2 cursorEx).2 = .ok (1, 10) :=
  ⟨rfl, rfl⟩

/-- C4 amended: `StepForward` never sets the exhaustion flag, so after any
`StepForward` call — in particular one that returned `true` having stepped
past the rightmost leaf — a `GetEntry` on the cursor returns an error iff
the cursor's `isEnd` flag was already set when the cursor was created; a
mid-iteration cursor keeps returning its current entry without error. -/
theorem C4_amended_getEntry_checks_only_stale_flag
    (pager : List LeafNode) (fuel : Nat) (c : BTreeCursor) :
    ((StepForward pager fuel c).2).isEnd = c.isEnd ∧
    (GetEntry (StepForward pager fuel c).2).toOption.isSome = !c.isEnd := by
  refine ⟨StepForward_isEnd pager fuel c, ?_⟩
  rw [GetEntry_isOk, StepForward_isEnd]

/-! ## C5 -/

/-- After overwriting a table that exists, looking the name up yields the
new contents. -/
theorem lookup_setTable (name : String) (tbl : Table) :
    ∀ (d : DB), (d.lookup name).isSome → (d.setTable name tbl).lookup name = some tbl := by
  intro d
  induction d with
  | nil => intro h; simp [List.lookup] at h
  | cons p d ih =>
    obtain ⟨n', t'⟩ := p
    intro h
    by_cases hn : n' = name
    · subst hn
      simp [DB.setTable, List.lookup_cons]
    · have hl : (List.lookup name d).isSome := by
        simpa [List.lookup_cons, beq_false_of_ne (Ne.symm hn)] using h
      simp only [DB.setTable, List.map_cons, if_neg hn, List.lookup_cons,
        beq_false_of_ne (Ne.symm hn)]
      exact ih hl

/-- Replacing every cell with key `k` by `(k, v)` makes the lookup of a
present key return `v`. -/
theorem lookup_map_replace (k v : Int) :
    ∀ (tbl : Table), (tbl.lookup k).isSome →
      (tbl.map fun e => if e.1 = k then (k, v) else e).lookup k = some v := by
  intro tbl
  induction tbl with
  | nil => intro h; simp [List.lookup] at h
  | cons e tbl ih =>
    obtain ⟨k', v'⟩ := e
    intro h
    by_cases hk : k' = k
    · subst hk
      simp [List.lookup_cons]
    · have hl : (List.lookup k tbl).isSome := by
        simpa [List.lookup_cons, beq_false_of_ne (Ne.symm hk)] using h
      simp only [List.map_cons, if_neg hk, List.lookup_cons,
        beq_false_of_ne (Ne.symm hk)]
      exact ih hl

/-- A successful `HandleInsert` leaves the key mapped to the new value. -/
theorem handleInsert_find (d d' : DB) (name : String) (k v : Int)
    (h : d.handleInsert name k v = .ok d') : d'.find name k = some v := by
  unfold DB.handleInsert at h
  cases htbl : d.lookup name with
  | none => rw [htbl] at h; exact absurd h (by simp)
  | some tbl =>
    rw [htbl] at h
    by_cases hdup : (tbl.lookup k).isSome
    · simp [hdup] at h
    · simp only [hdup, Bool.false_eq_true, if_false, Except.ok.injEq] at h
      subst h
      unfold DB.find
      rw [lookup_setTable name _ d (by simp [htbl])]
      simp [List.lookup]

/-- A successful `HandleUpdate` leaves the key mapped to the new value. -/
theorem handleUpdate_find (d d' : DB) (name : String) (k v : Int)
    (h : d.handleUpdate name k v = .ok d') : d'.find name k = some v := by
  unfold DB.handleUpdate at h
  cases htbl : d.lookup name with
  | none => rw [htbl] at h; exact absurd h (by simp)
  | some tbl =>
    rw [htbl] at h
    by_cases hpres : (tbl.lookup k).isSome
    · simp only [hpres, if_true, Except.ok.injEq] at h
      subst h
      unfold DB.find
      rw [lookup_setTable name _ d (by simp [htbl])]
      exact lookup_map_replace k v tbl hpres
    · simp [hpres] at h

/-- C5: `Redo` of an edit record uses the source's fallback chain — a
delete record is applied as-is with no fallback, a failing insert falls
back to an update, a failing update falls back to an insert — and after a
successful `Redo` of an insert or update record the table maps the
record's key to the record's new value, whatever the starting state. -/
theorem C5_redo_fallback (d : DB) (id : Nat) (tn : String) (a : Action) (k o n : Int) :
    Redo d (.edit id tn .delete k o n) = d.handleDelete tn k ∧
    (∀ e, d.handleInsert tn k n = .error e →
      Redo d (.edit id tn .insert k o n) = d.handleUpdate tn k n) ∧
    (∀ e, d.handleUpdate tn k n = .error e →
      Redo d (.edit id tn .update k o n) = d.handleInsert tn k n) ∧
    (a ≠ .delete → ∀ d', Redo d (.edit id tn a k o n) = .ok d' → d'.find tn k = some n) := by
  refine ⟨rfl, ?_, ?_, ?_⟩
  · intro e he
    simp [Redo, he]
  · intro e he
    simp [Redo, he]
  · intro ha d' hred
    cases a with
    | delete => exact absurd rfl ha
    | insert =>
      cases hins : d.handleInsert tn k n with
      | ok d2 =>
        have heq : Redo d (.edit id tn .insert k o n) = .ok d2 := by
          simp [Redo, hins]
        rw [heq] at hred
        cases hred
        exact handleInsert_find d d' tn k n hins
      | error e =>
        have heq : Redo d (.edit id tn .insert k o n) = d.handleUpdate tn k n := by
          simp [Redo, hins]
        rw [heq] at hred
        exact handleUpdate_find d d' tn k n hred
    | update =>
      cases hupd : d.handleUpdate tn k n with
      | ok d2 =>
        have heq : Redo d (.edit id tn .update k o n) = .ok d2 := by
          simp [Redo, hupd]
        rw [heq] at hred
        cases hred
        exact handleUpdate_find d d' tn k n hupd
      | error e =>
        have heq : Redo d (.edit id tn .update k o n) = d.handleInsert tn k n := by
          simp [Redo, hupd]
        rw [heq] at hred
        exact handleInsert_find d d' tn k n hred

/-- Witness for C5: redoing an insert record for a key that already exists
falls back to the update and leaves the key at the record's new value. -/
theorem C5_witness :
    Redo [("t", [(1, 5)])] (.edit 3 "t" .insert 1 0 9) = .ok [("t", [(1, 9)])] ∧
    DB.find [("t", [(1, 9)])] "t" 1 = some 9 :=
  ⟨rfl,
    (C5_redo_fallback [("t", [(1, 5)])] 3 "t" .insert 1 0 9).2.2.2
      (by decide) [("t", [(1, 9)])] rfl⟩

/-! ## C6 -/

/-- Keep only edit records of a stack slot. -/
def editOnly : Option LogRec → Option LogRec
  | some (.edit id tn a k ov nv) => some (.edit id tn a k ov nv)
  | _ => none

/-- The rollback loop succeeds with `d'` exactly when sequentially undoing
the edit records (in the traversal's order) succeeds with `d'`. -/
theorem rollbackLoop_none_iff :
    ∀ (ls : List (Option LogRec)) (d d' : DB),
      rollbackLoop d ls = (d', none) ↔ (ls.filterMap editOnly).foldlM Undo d = .ok d'
  | [], d, d' => by
    simp only [rollbackLoop, List.filterMap_nil, List.foldlM_nil, Prod.mk.injEq,
      and_true]
    constructor
    · rintro rfl
      rfl
    · intro h
      exact Except.ok.inj h
  | l :: rest, d, d' => by
    match l with
    | none => simpa [rollbackLoop, editOnly] using rollbackLoop_none_iff rest d d'
    | some (.table a b) =>
      simpa [rollbackLoop, editOnly] using rollbackLoop_none_iff rest d d'
    | some (.start i) =>
      simpa [rollbackLoop, editOnly] using rollbackLoop_none_iff rest d d'
    | some (.commit i) =>
      simpa [rollbackLoop, editOnly] using rollbackLoop_none_iff rest d d'
    | some (.checkpoint is) =>
      simpa [rollbackLoop, editOnly] using rollbackLoop_none_iff rest d d'
    | some (.edit id tn a k ov nv) =>
      cases hu : Undo d (.edit id tn a k ov nv) with
      | ok d2 =>
        simpa [rollbackLoop, editOnly, hu] using rollbackLoop_none_iff rest d2 d'
      | error e =>
        simp [rollbackLoop, editOnly, hu, List.foldlM_cons, Bind.bind, Except.bind]

/-- Looking up a key in a list from which it was filtered out fails. -/
theorem lookup_filter_ne {β : Type} :
    ∀ (l : List (Nat × β)) (c : Nat),
      (l.filter fun p => decide (p.1 ≠ c)).lookup c = none
  | [], _ => rfl
  | p :: l, c => by
    obtain ⟨p1, p2⟩ := p
    by_cases hp : p1 = c
    · rw [List.filter_cons, if_neg (by simp [hp])]
      exact lookup_filter_ne l c
    · rw [List.filter_cons, if_pos (by simp [hp]), List.lookup_cons,
        beq_false_of_ne (Ne.symm hp)]
      exact lookup_filter_ne l c

/-- After `RM.Commit` the client has no stack. -/
theorem RM_Commit_lookup (rm : RM) (c : Nat) :
    ((rm.Commit c).txStack).lookup c = none :=
  lookup_filter_ne rm.txStack c

/-- After `TM.Commit` the client has no transaction. -/
theorem TM_Commit_lookup (tm : TM) (c : Nat) :
    (((tm.Commit c).1).transactions).lookup c = none := by
  unfold TM.Commit
  cases h : tm.transactions.lookup c with
  | none => exact h
  | some t => exact lookup_filter_ne tm.transactions c

/-- `Rollback` unfolded under a known stack lookup. -/
theorem Rollback_eq_of_lookup (s : Sys) (c : Nat) (stack : List (Option LogRec))
    (h : s.rm.txStack.lookup c = some stack) :
    Rollback s c =
      match rollbackLoop s.db ((stack.drop 1).reverse) with
      | (d2, some e) => ({ s with db := d2 }, some e)
      | (d2, none) =>
        let s2 := { s with db := d2, rm := s.rm.Commit c }
        ({ s2 with tm := (s2.tm.Commit c).1 }, none) := by
  unfold Rollback
  rw [h]

/-- C6: a successful `Rollback` of a live transaction walks the recorded
stack from newest to oldest (indices `len-1` down to `1`), applies the
inverse of each edit record in that order — so the final table state is
the sequential undo of the reversed edit list — and then commits the
transaction in both the recovery manager and the transaction manager. -/
theorem C6_rollback_undoes_newest_first_then_commits
    (s : Sys) (clientId : Nat) (stack : List (Option LogRec)) (s' : Sys)
    (hstack : s.rm.txStack.lookup clientId = some stack)
    (hok : Rollback s clientId = (s', none)) :
    ((stack.drop 1).reverse.filterMap editOnly).foldlM Undo s.db = .ok s'.db ∧
    s'.rm.txStack.lookup clientId = none ∧
    s'.tm.transactions.lookup clientId = none := by
  rw [Rollback_eq_of_lookup s clientId stack hstack] at hok
  cases hloop : rollbackLoop s.db ((stack.drop 1).reverse) with
  | mk d2 err =>
    rw [hloop] at hok
    cases err with
    | some e => simp at hok
    | none =>
      simp only [Prod.mk.injEq] at hok
      obtain ⟨hs', -⟩ := hok
      subst hs'
      refine ⟨(rollbackLoop_none_iff _ _ _).mp hloop, ?_, ?_⟩
      · exact RM_Commit_lookup s.rm clientId
      · exact TM_Commit_lookup _ clientId

/-- The state in which claim C6's witness rolls back transaction 5: the
stack records one insert of key 1, present in the table. -/
def sysRollbackEx : Sys :=
  { db := [("t", [(1, 100)])],
    tm := ⟨[(5, ⟨5, []⟩)], [], []⟩,
    rm := ⟨[(5, [none, some (.start 5), some (.edit 5 "t" .insert 1 0 100)])]⟩ }

/-- Witness for C6: rolling back transaction 5 deletes the inserted key
and removes the transaction from both managers. -/
theorem C6_witness :
    (([none, some (LogRec.start 5),
        some (LogRec.edit 5 "t" .insert 1 0 100)].drop 1).reverse.filterMap
          editOnly).foldlM Undo sysRollbackEx.db = .ok (Rollback sysRollbackEx 5).1.db ∧
    (Rollback sysRollbackEx 5).1.rm.txStack.lookup 5 = none ∧
    (Rollback sysRollbackEx 5).1.tm.transactions.lookup 5 = none :=
  C6_rollback_undoes_newest_first_then_commits sysRollbackEx 5
    [none, some (.start 5), some (.edit 5 "t" .insert 1 0 100)]
    (Rollback sysRollbackEx 5).1 rfl rfl

/-! ## C7 -/

/-- After the depth-equalisation loop, both sides carry the larger of the
two initial global depths. -/
theorem equalizeDepths_depth (l r : HashTable) :
    (equalizeDepths l r).1.depth = max l.depth r.depth ∧
    (equalizeDepths l r).2.depth = max l.depth r.depth := by
  induction l, r using equalizeDepths.induct with
  | case1 l r heq =>
    rw [equalizeDepths, if_pos heq]
    simp only [HashTable.GetDepth] at heq
    simp [heq]
  | case2 l r hne hlt ih =>
    rw [equalizeDepths, if_neg hne, if_pos hlt]
    simp only [HashTable.GetDepth] at hne hlt
    obtain ⟨ih1, ih2⟩ := ih
    constructor
    · rw [ih1]; simp only [HashTable.ExtendTable]; omega
    · rw [ih2]; simp only [HashTable.ExtendTable]; omega
  | case3 l r hne hge ih =>
    rw [equalizeDepths, if_neg hne, if_neg hge]
    simp only [HashTable.GetDepth] at hne hge
    obtain ⟨ih1, ih2⟩ := ih
    constructor
    · rw [ih1]; simp only [HashTable.ExtendTable]; omega
    · rw [ih2]; simp only [HashTable.ExtendTable]; omega

/-- The side whose global depth was not smaller is returned untouched by
the depth-equalisation loop. -/
theorem equalizeDepths_untouched (l r : HashTable) :
    (l.depth ≤ r.depth → (equalizeDepths l r).2 = r) ∧
    (r.depth ≤ l.depth → (equalizeDepths l r).1 = l) := by
  induction l, r using equalizeDepths.induct with
  | case1 l r heq =>
    rw [equalizeDepths, if_pos heq]
    simp
  | case2 l r hne hlt ih =>
    rw [equalizeDepths, if_neg hne, if_pos hlt]
    simp only [HashTable.GetDepth] at hne hlt ⊢
    constructor
    · intro _
      exact ih.1 (by simp [HashTable.ExtendTable, HashTable.GetDepth]; omega)
    · intro hle
      omega
  | case3 l r hne hge ih =>
    rw [equalizeDepths, if_neg hne, if_neg hge]
    simp only [HashTable.GetDepth] at hne hge ⊢
    constructor
    · intro hle
      omega
    · intro _
      exact ih.2 (by simp [HashTable.ExtendTable, HashTable.GetDepth]; omega)

/-- The probe loop emits no pair twice, given that everything already
probed is recorded as seen. -/
theorem probeLoop_nodup :
    ∀ (ps seen probed : List (Int × Int)),
      probed.Nodup → (∀ x ∈ probed, x ∈ seen) → (probeLoop ps seen probed).Nodup
  | [], _, _, hnd, _ => hnd
  | p :: rest, seen, probed, hnd, hsub => by
    unfold probeLoop
    by_cases hp : p ∈ seen
    · simp only [hp, if_true]
      exact probeLoop_nodup rest seen probed hnd hsub
    · simp only [hp, if_false]
      refine probeLoop_nodup rest (p :: seen) (probed ++ [p]) ?_ ?_
      · rw [List.nodup_append]
        exact ⟨hnd, List.nodup_singleton p,
          fun x hx => by simp only [List.mem_singleton]
                         rintro rfl; exact hp (hsub x hx)⟩
      · intro x hx
        rcases List.mem_append.mp hx with h | h
        · exact List.mem_cons_of_mem p (hsub x h)
        · simp only [List.mem_singleton] at h
          exact h ▸ List.mem_cons_self p seen

/-- C7: the depth-equalisation loop of `Join` makes both temporary hash
tables carry the larger of the two initial global depths, leaving the side
whose depth was not smaller completely untouched, and the probe phase
visits each distinct (left bucket, right bucket) page-number pair at most
once. -/
theorem C7_join_equalises_depths_and_probes_pairs_once
    (l r : HashTable) (lb rb : List Int) :
    ((equalizeDepths l r).1.GetDepth = max l.GetDepth r.GetDepth ∧
      (equalizeDepths l r).2.GetDepth = max l.GetDepth r.GetDepth) ∧
    (l.GetDepth ≤ r.GetDepth → (equalizeDepths l r).2 = r) ∧
    (r.GetDepth ≤ l.GetDepth → (equalizeDepths l r).1 = l) ∧
    (probedPairs lb rb).Nodup :=
  ⟨equalizeDepths_depth l r,
    (equalizeDepths_untouched l r).1,
    (equalizeDepths_untouched l r).2,
    probeLoop_nodup (lb.zip rb) [] [] List.nodup_nil (by simp)⟩

/-- Witness for C7: a depth-1 table joined with a depth-2 table — the left
side is extended to depth 2, the right side is returned untouched, and the
probed pairs of a directory with repeats are duplicate-free. -/
theorem C7_witness :
    (equalizeDepths ⟨1, [10, 11]⟩ ⟨2, [20, 21, 22, 23]⟩).1.GetDepth
        = max (HashTable.GetDepth ⟨1, [10, 11]⟩) (HashTable.GetDepth ⟨2, [20, 21, 22, 23]⟩) ∧
    (equalizeDepths ⟨1, [10, 11]⟩ ⟨2, [20, 21, 22, 23]⟩).2 = ⟨2, [20, 21, 22, 23]⟩ ∧
    (probedPairs [1, 2, 1, 2] [5, 6, 5, 7]).Nodup :=
  ⟨(C7_join_equalises_depths_and_probes_pairs_once ⟨1, [10, 11]⟩ ⟨2, [20, 21, 22, 23]⟩
      [1, 2, 1, 2] [5, 6, 5, 7]).1.1,
    (C7_join_equalises_depths_and_probes_pairs_once ⟨1, [10, 11]⟩ ⟨2, [20, 21, 22, 23]⟩
      [1, 2, 1, 2] [5, 6, 5, 7]).2.1 (by decide),
    (C7_join_equalises_depths_and_probes_pairs_once ⟨1, [10, 11]⟩ ⟨2, [20, 21, 22, 23]⟩
      [1, 2, 1, 2] [5, 6, 5, 7]).2.2.2⟩

/-! ## C8 -/

/-- C8: `Unlock` on a resource the transaction does not hold, or holds in
a different mode than requested, fails with an error and changes nothing —
neither the transaction's resource map nor the lock manager. -/
theorem C8_unlock_error_paths_change_nothing
    (tm : TM) (clientId : Nat) (tn : String) (k : Int) (lType : LockType)
    (t : Transaction) (hfound : tm.GetTransaction clientId = some t) :
    (t.resources.lookup ⟨tn, k⟩ = none →
      tm.Unlock clientId tn k lType = (tm, some "resource to unlock not found")) ∧
    (∀ m : LockType, t.resources.lookup ⟨tn, k⟩ = some m → m ≠ lType →
      tm.Unlock clientId tn k lType = (tm, some "lock type does not match")) := by
  constructor
  · intro hres
    simp [TM.Unlock, hfound, hres]
  · intro m hres hne
    simp [TM.Unlock, hfound, hres, hne]

/-- Witness for C8: in `tmSoleReader`, unlocking an unheld resource and
unlocking a held one in the wrong mode both fail without touching the
state. -/
theorem C8_witness :
    TM.Unlock tmSoleReader 1 "t" 9 .R = (tmSoleReader, some "resource to unlock not found") ∧
    TM.Unlock tmSoleReader 1 "t" 5 .W = (tmSoleReader, some "lock type does not match") := by
  have h9 := C8_unlock_error_paths_change_nothing tmSoleReader 1 "t" 9 .R
    ⟨1, [(⟨"t", 5⟩, .R)]⟩ (by decide)
  have h5 := C8_unlock_error_paths_change_nothing tmSoleReader 1 "t" 5 .W
    ⟨1, [(⟨"t", 5⟩, .R)]⟩ (by decide)
  exact ⟨h9.1 (by decide), h5.2 .R (by decide) (by decide)⟩

/-! ## C10 -/

/-- Inserting more keys never changes the filter's size. -/
theorem foldl_Insert_size (h1 h2 : Int → Int → ℕ) :
    ∀ (ks : List Int) (f : BloomFilter),
      (ks.foldl (BloomFilter.Insert h1 h2) f).size = f.size
  | [], _ => rfl
  | k :: ks, f => by
    rw [List.foldl_cons, foldl_Insert_size h1 h2 ks]
    rfl

/-- Inserting more keys never clears a bit. -/
theorem foldl_Insert_bits_mono (h1 h2 : Int → Int → ℕ) :
    ∀ (ks : List Int) (f : BloomFilter) (x : ℕ),
      x ∈ f.bits → x ∈ (ks.foldl (BloomFilter.Insert h1 h2) f).bits
  | [], _, _, hx => hx
  | k :: ks, f, x, hx => by
    rw [List.foldl_cons]
    exact foldl_Insert_bits_mono h1 h2 ks _ x
      (Finset.mem_insert_of_mem (Finset.mem_insert_of_mem hx))

/-- C10: whatever the two hash functions are, after `Insert key` every
subsequent `Contains key` — even after arbitrarily many further inserts —
returns `true` (the filter has no false negatives), and `Contains` never
mutates the filter. -/
theorem C10_bloom_no_false_negatives
    (h1 h2 : Int → Int → ℕ) (f : BloomFilter) (key : Int) (ks : List Int) :
    (BloomFilter.Contains h1 h2
        (ks.foldl (BloomFilter.Insert h1 h2) (f.Insert h1 h2 key)) key).1 = true ∧
    (BloomFilter.Contains h1 h2 f key).2 = f := by
  refine ⟨?_, rfl⟩
  have hsize : (ks.foldl (BloomFilter.Insert h1 h2) (f.Insert h1 h2 key)).size
      = f.size := by
    rw [foldl_Insert_size]
    rfl
  have hb1 : h1 key f.size ∈ (f.Insert h1 h2 key).bits :=
    Finset.mem_insert_of_mem (Finset.mem_insert_self _ _)
  have hb2 : h2 key f.size ∈ (f.Insert h1 h2 key).bits :=
    Finset.mem_insert_self _ _
  simp only [BloomFilter.Contains, hsize, Bool.and_eq_true, decide_eq_true_eq]
  exact ⟨foldl_Insert_bits_mono h1 h2 ks _ _ hb1,
    foldl_Insert_bits_mono h1 h2 ks _ _ hb2⟩

/-! ## C9 -/

/-- A leaf-chain pager is well-formed when each leaf's right sibling is
the next page and the rightmost leaf's sibling is `-1` (spec §3: a leaf
carries a right-sibling page number, `-1` at the rightmost). -/
def chainOk (pager : List LeafNode) : Prop :=
  ∀ i, i < pager.length →
    (pager.getD i default).rightSiblingPN =
      if i + 1 < pager.length then (i : Int) + 1 else -1

/-- All entries of a leaf chain, in chain order. -/
def flatEntries (pager : List LeafNode) : List (Int × Int) :=
  (pager.map fun lf => lf.entries).flatten

/-- Keys are strictly increasing across the whole chain (spec §3: keys
within a node are strictly increasing and subtrees are ordered). -/
def sortedOk (pager : List LeafNode) : Prop :=
  ((flatEntries pager).map Prod.fst).Pairwise (· < ·)

/-- The entries at or after cell `m` of leaf `i`. -/
def suffixFrom (pager : List LeafNode) (i m : Nat) : List (Int × Int) :=
  (pager.getD i default).entries.drop m ++ flatEntries (pager.drop (i + 1))

/-- The invariant `TableFindRange`'s cursor maintains: not marked at-end,
sitting on leaf `i` at a nonnegative cell, with every entry at or after
the cursor keyed at least `startKey`. -/
def cursorInvAt (pager : List LeafNode) (startKey : Int) (i : Nat)
    (c : BTreeCursor) : Prop :=
  c.isEnd = false ∧ i < pager.length ∧ pager.getD i default = c.curNode ∧
  0 ≤ c.cellnum ∧ ∀ e ∈ suffixFrom pager i c.cellnum.toNat, startKey ≤ e.1

/-! ### C9 proof development -/

/-- `flatEntries` of a cons splits off the head leaf's entries. -/
theorem flatEntries_cons (lf : LeafNode) (rest : List LeafNode) :
    flatEntries (lf :: rest) = lf.entries ++ flatEntries rest := by
  simp [flatEntries]

/-- Peeling one leaf off a dropped chain. -/
theorem flatEntries_drop_succ (pager : List LeafNode) (i : Nat)
    (h : i + 1 < pager.length) :
    flatEntries (pager.drop (i + 1))
      = (pager.getD (i + 1) default).entries ++ flatEntries (pager.drop (i + 2)) := by
  rw [List.drop_eq_getElem_cons h, flatEntries_cons, List.getD_eq_getElem pager default h]

/-- Moving one cell right shrinks the suffix. -/
theorem suffixFrom_shift (pager : List LeafNode) (i m : Nat) :
    suffixFrom pager i (m + 1) ⊆ suffixFrom pager i m := by
  unfold suffixFrom
  intro e he
  rcases List.mem_append.mp he with h | h
  · refine List.mem_append.mpr (Or.inl ?_)
    have : (pager.getD i default).entries.drop (m + 1)
        = ((pager.getD i default).entries.drop m).drop 1 := by
      rw [List.drop_drop, Nat.add_comm]
    rw [this] at h
    exact List.drop_subset _ _ h
  · exact List.mem_append.mpr (Or.inr h)

/-- Moving to the next leaf's first cell shrinks the suffix. -/
theorem suffixFrom_next (pager : List LeafNode) (i m : Nat)
    (h : i + 1 < pager.length) :
    suffixFrom pager (i + 1) 0 ⊆ suffixFrom pager i m := by
  unfold suffixFrom
  rw [List.drop_zero, ← flatEntries_drop_succ pager i h]
  exact fun e he => List.mem_append.mpr (Or.inr he)

/-- `StepForward` (with enough fuel for the chain) preserves the cursor
invariant, never grows the entry suffix, and lands either on an in-range
cell or on a cursor whose suffix is empty. -/
theorem StepForward_inv (pager : List LeafNode) (startKey : Int) (hcok : chainOk pager) :
    ∀ (fuel i : Nat) (c : BTreeCursor),
      cursorInvAt pager startKey i c → pager.length - i < fuel →
      ∃ i', i ≤ i' ∧
        cursorInvAt pager startKey i' (StepForward pager fuel c).2 ∧
        suffixFrom pager i' ((StepForward pager fuel c).2).cellnum.toNat
          ⊆ suffixFrom pager i c.cellnum.toNat ∧
        (((StepForward pager fuel c).2).cellnum.toNat
            < ((StepForward pager fuel c).2).curNode.entries.length ∨
          suffixFrom pager i' ((StepForward pager fuel c).2).cellnum.toNat = [])
  | 0, i, c => fun _ hf => absurd hf (by omega)
  | fuel + 1, i, c => by
    intro hinv hf
    obtain ⟨hend, hi, hnode, hpos, hsuf⟩ := hinv
    by_cases hb : c.cellnum + 1 ≥ c.curNode.numKeys
    · have hsib : c.curNode.rightSiblingPN
          = if i + 1 < pager.length then (i : Int) + 1 else -1 := by
        rw [← hnode]
        exact hcok i hi
      by_cases hlast : i + 1 < pager.length
      · rw [if_pos hlast] at hsib
        have hnn : ¬ c.curNode.rightSiblingPN < 0 := by rw [hsib]; omega
        have hnext : getPage pager c.curNode.rightSiblingPN
            = some (pager.getD (i + 1) default) := by
          rw [hsib]
          unfold getPage
          rw [if_neg (by omega)]
          have ht : ((i : Int) + 1).toNat = i + 1 := by omega
          rw [ht]
          cases hq : pager.get? (i + 1) with
          | none =>
            rw [List.get?_eq_none] at hq
            omega
          | some x =>
            have hgd : pager.getD (i + 1) default = x := by
              rw [List.getD_eq_getElem?_getD, ← List.get?_eq_getElem?, hq]
              rfl
            rw [hgd]
        by_cases hempty : (0 : Int) = (pager.getD (i + 1) default).numKeys
        · -- the next leaf is empty: the source recurses
          have hstep : StepForward pager (fuel + 1) c
              = StepForward pager fuel
                  { c with cellnum := 0, curNode := pager.getD (i + 1) default } := by
            simp only [StepForward]
            rw [if_pos hb, if_neg hnn, hnext]
            simp only [if_pos hempty]
          have hinv2 : cursorInvAt pager startKey (i + 1)
              { c with cellnum := 0, curNode := pager.getD (i + 1) default } := by
            refine ⟨hend, hlast, rfl, le_refl 0, ?_⟩
            intro e he
            exact hsuf e (suffixFrom_next pager i c.cellnum.toNat hlast he)
          obtain ⟨i', hle, hinv', hsub', hdisj'⟩ :=
            StepForward_inv pager startKey hcok fuel (i + 1)
              { c with cellnum := 0, curNode := pager.getD (i + 1) default }
              hinv2 (by omega)
          refine ⟨i', by omega, ?_, ?_, ?_⟩
          · rw [hstep]; exact hinv'
          · rw [hstep]
            exact fun e he => suffixFrom_next pager i c.cellnum.toNat hlast (hsub' he)
          · rw [hstep]; exact hdisj'
        · -- the next leaf is nonempty: the cursor lands on its first cell
          have hstep : StepForward pager (fuel + 1) c
              = (false, { c with cellnum := 0, curNode := pager.getD (i + 1) default }) := by
            simp only [StepForward]
            rw [if_pos hb, if_neg hnn, hnext]
            simp only [if_neg hempty]
          rw [hstep]
          refine ⟨i + 1, by omega, ⟨hend, hlast, rfl, le_refl 0, ?_⟩, ?_, ?_⟩
          · intro e he
            exact hsuf e (suffixFrom_next pager i c.cellnum.toNat hlast he)
          · exact suffixFrom_next pager i c.cellnum.toNat hlast
          · left
            show (0 : Int).toNat < (pager.getD (i + 1) default).entries.length
            simp only [LeafNode.numKeys] at hempty
            omega
      · -- no right sibling: the cursor is unchanged
        rw [if_neg hlast] at hsib
        have hneg : c.curNode.rightSiblingPN < 0 := by rw [hsib]; omega
        have hstep : StepForward pager (fuel + 1) c = (true, c) := by
          simp only [StepForward]
          rw [if_pos hb, if_pos hneg]
        rw [hstep]
        have hdrop : pager.drop (i + 1) = [] := List.drop_eq_nil_of_le (by omega)
        have hsufeq : suffixFrom pager i c.cellnum.toNat
            = (pager.getD i default).entries.drop c.cellnum.toNat := by
          unfold suffixFrom
          rw [hdrop]
          simp [flatEntries]
        refine ⟨i, le_refl i, ⟨hend, hi, hnode, hpos, hsuf⟩, fun e he => he, ?_⟩
        show c.cellnum.toNat < c.curNode.entries.length ∨
          suffixFrom pager i c.cellnum.toNat = []
        by_cases hin : c.cellnum.toNat < c.curNode.entries.length
        · exact Or.inl hin
        · right
          rw [hsufeq, hnode]
          exact List.drop_eq_nil_of_le (by omega)
    · -- still inside the leaf: advance by one cell
      have hstep : StepForward pager (fuel + 1) c
          = (false, { c with cellnum := c.cellnum + 1 }) := by
        simp only [StepForward]
        rw [if_neg hb]
      rw [hstep]
      have htn : (c.cellnum + 1).toNat = c.cellnum.toNat + 1 := by omega
      refine ⟨i, le_refl i, ⟨hend, hi, hnode, by show (0 : Int) ≤ c.cellnum + 1; omega, ?_⟩,
        ?_, ?_⟩
      · intro e he
        rw [htn] at he
        exact hsuf e (suffixFrom_shift pager i c.cellnum.toNat he)
      · intro e he
        rw [htn] at he
        exact suffixFrom_shift pager i c.cellnum.toNat he
      · left
        show (c.cellnum + 1).toNat < c.curNode.entries.length
        simp only [LeafNode.numKeys] at hb
        omega

/-- The cell under an in-range cursor is the head of its suffix. -/
theorem mem_suffixFrom_head (pager : List LeafNode) (i m : Nat) (lf : LeafNode)
    (hnode : pager.getD i default = lf) (hm : m < lf.entries.length) :
    lf.entries[m] ∈ suffixFrom pager i m := by
  unfold suffixFrom
  rw [hnode, List.drop_eq_getElem_cons hm]
  exact List.mem_append.mpr (Or.inl (List.mem_cons_self _ _))

/-- An in-range suffix is a suffix of the chain's flattened entries. -/
theorem suffixFrom_eq_drop :
    ∀ (pager : List LeafNode) (i m : Nat), i < pager.length →
      m ≤ (pager.getD i default).entries.length →
      suffixFrom pager i m
        = (flatEntries pager).drop ((flatEntries (pager.take i)).length + m)
  | [], i, m => by intro h _; simp at h
  | lf :: rest, 0, m => by
    intro _ hm
    unfold suffixFrom
    simp only [List.take_zero, flatEntries, List.map_nil, List.flatten_nil,
      List.length_nil, Nat.zero_add, List.getD_cons_zero, List.drop_succ_cons,
      List.drop_zero, List.map_cons, List.flatten_cons]
    rw [List.drop_append_of_le_length]
    exact hm
  | lf :: rest, i + 1, m => by
    intro hi hm
    have h1 : suffixFrom (lf :: rest) (i + 1) m = suffixFrom rest i m := by
      unfold suffixFrom
      simp only [List.getD_cons_succ, List.drop_succ_cons]
    rw [h1, flatEntries_cons]
    have h2 : (lf :: rest).take (i + 1) = lf :: rest.take i := rfl
    rw [h2, flatEntries_cons, List.length_append]
    have h3 : lf.entries.length + (flatEntries (rest.take i)).length
        + m = lf.entries.length + ((flatEntries (rest.take i)).length + m) := by omega
    rw [h3, List.drop_append]
    exact suffixFrom_eq_drop rest i m (by simpa using hi) (by simpa using hm)

/-- In a sorted chain, everything at or after a position whose entry is
keyed at least `startKey` is keyed at least `startKey`. -/
theorem sorted_suffix (pager : List LeafNode) (startKey : Int)
    (hsort : sortedOk pager) (q : Nat) (a : Int × Int)
    (hq : (flatEntries pager).get? q = some a) (ha : startKey ≤ a.1) :
    ∀ e ∈ (flatEntries pager).drop q, startKey ≤ e.1 := by
  have hp : (flatEntries pager).Pairwise (fun x y => x.1 < y.1) :=
    List.pairwise_map.mp hsort
  intro e he
  obtain ⟨j, hj⟩ := List.mem_iff_get?.mp he
  rw [List.get?_drop] at hj
  obtain ⟨hjlt, hje⟩ := List.get?_eq_some.mp hj
  obtain ⟨hqlt, hqa⟩ := List.get?_eq_some.mp hq
  cases Nat.eq_zero_or_pos j with
  | inl hj0 =>
    subst hj0
    simp only [Nat.add_zero] at hje
    have hae : a = e := by rw [← hqa, ← hje]
    rw [← hae]
    exact ha
  | inr hjpos =>
    have hlt : ((flatEntries pager).get ⟨q, hqlt⟩).1
        < ((flatEntries pager).get ⟨q + j, hjlt⟩).1 :=
      (List.pairwise_iff_get.mp hp) ⟨q, hqlt⟩ ⟨q + j, hjlt⟩
        (by rw [Fin.mk_lt_mk]; omega)
    rw [hqa, hje] at hlt
    omega

/-- A cursor `TableFind` returns with its end flag unset satisfies the
range invariant for its start key, on an in-range cell. -/
theorem TableFind_inv (pager : List LeafNode) (startKey : Int)
    (hsort : sortedOk pager) (c : BTreeCursor)
    (hfind : TableFind pager startKey = some c) (hend : c.isEnd = false) :
    cursorInvAt pager startKey (findLeafIdx pager startKey) c ∧
    c.cellnum.toNat < c.curNode.entries.length := by
  unfold TableFind at hfind
  cases hleaf : pager.get? (findLeafIdx pager startKey) with
  | none =>
    rw [hleaf] at hfind
    exact absurd hfind (by simp)
  | some leaf =>
    rw [hleaf] at hfind
    simp only [Option.some.injEq] at hfind
    subst hfind
    obtain ⟨hi, -⟩ := List.get?_eq_some.mp hleaf
    have hgd : pager.getD (findLeafIdx pager startKey) default = leaf := by
      rw [List.getD_eq_getElem?_getD, ← List.get?_eq_getElem?, hleaf]
      rfl
    have hne : ¬ (leaf.entries.findIdx (fun e => decide (startKey ≤ e.1))
        = leaf.entries.length) := of_decide_eq_false hend
    have hle : leaf.entries.findIdx (fun e => decide (startKey ≤ e.1))
        ≤ leaf.entries.length :=
      List.findIdx_le_length (fun e : Int × Int => decide (startKey ≤ e.1))
    have hcn : leaf.entries.findIdx (fun e => decide (startKey ≤ e.1))
        < leaf.entries.length := by omega
    have hdec := List.findIdx_get (p := fun e : Int × Int => decide (startKey ≤ e.1))
      (w := hcn)
    simp only [decide_eq_true_eq] at hdec
    have hsufeq := suffixFrom_eq_drop pager (findLeafIdx pager startKey)
      (leaf.entries.findIdx (fun e => decide (startKey ≤ e.1))) hi (by rw [hgd]; omega)
    have hdropflat : (flatEntries pager).drop
        ((flatEntries (pager.take (findLeafIdx pager startKey))).length
          + leaf.entries.findIdx (fun e => decide (startKey ≤ e.1)))
        = leaf.entries[leaf.entries.findIdx (fun e => decide (startKey ≤ e.1))] ::
            (leaf.entries.drop (leaf.entries.findIdx (fun e => decide (startKey ≤ e.1)) + 1)
              ++ flatEntries (pager.drop (findLeafIdx pager startKey + 1))) := by
      rw [← hsufeq]
      unfold suffixFrom
      rw [hgd, List.drop_eq_getElem_cons hcn]
      rfl
    have hq : (flatEntries pager).get?
        ((flatEntries (pager.take (findLeafIdx pager startKey))).length
          + leaf.entries.findIdx (fun e => decide (startKey ≤ e.1)))
        = some leaf.entries[leaf.entries.findIdx (fun e => decide (startKey ≤ e.1))] := by
      have h0 : ((flatEntries pager).drop
          ((flatEntries (pager.take (findLeafIdx pager startKey))).length
            + leaf.entries.findIdx (fun e => decide (startKey ≤ e.1)))).get? 0
          = some leaf.entries[leaf.entries.findIdx (fun e => decide (startKey ≤ e.1))] := by
        rw [hdropflat]
        rfl
      rw [List.get?_drop] at h0
      simpa using h0
    have hall := sorted_suffix pager startKey hsort _ _ hq hdec
    have htn : ((leaf.entries.findIdx (fun e => decide (startKey ≤ e.1)) : Int)).toNat
        = leaf.entries.findIdx (fun e => decide (startKey ≤ e.1)) := by omega
    constructor
    · refine ⟨hend, hi, hgd, Int.natCast_nonneg _, ?_⟩
      show ∀ e ∈ suffixFrom pager (findLeafIdx pager startKey)
        ((leaf.entries.findIdx (fun e => decide (startKey ≤ e.1)) : Int)).toNat,
          startKey ≤ e.1
      rw [htn, hsufeq]
      exact hall
    · show ((leaf.entries.findIdx (fun e => decide (startKey ≤ e.1)) : Int)).toNat
        < leaf.entries.length
      omega

/-- A cursor with an empty suffix sits at or past its leaf's last cell. -/
theorem length_le_of_suffixFrom_nil (pager : List LeafNode) (i m : Nat)
    (c : BTreeCursor) (hnode : pager.getD i default = c.curNode)
    (hnil : suffixFrom pager i m = []) : c.curNode.entries.length ≤ m := by
  unfold suffixFrom at hnil
  rw [hnode] at hnil
  exact List.drop_eq_nil_iff.mp (List.append_eq_nil.mp hnil).1

/-- A stuck cursor — empty suffix, so the stale-byte read yields the
default cell — makes the collection loop run out of any fuel: the Go loop
diverges. -/
theorem rangeLoop_stuck (pager : List LeafNode) (startKey endKey : Int)
    (hcok : chainOk pager) (hpos : 0 < endKey) :
    ∀ (fuel : Nat) (i : Nat) (c : BTreeCursor) (acc : List (Int × Int)),
      cursorInvAt pager startKey i c →
      suffixFrom pager i c.cellnum.toNat = [] →
      rangeLoop pager fuel endKey c (0, 0) acc = none
  | 0, i, c, acc => by
    intro _ _
    rfl
  | fuel + 1, i, c, acc => by
    intro hinv hnil
    obtain ⟨hend, hi, hnode, hposc, hsuf⟩ := hinv
    have hguard : endKey > ((0, 0) : Int × Int).1 ∧ c.IsEnd = false := by
      constructor
      · exact hpos
      · unfold BTreeCursor.IsEnd
        exact hend
    obtain ⟨i', hle, hinv', hsub', hdisj'⟩ :=
      StepForward_inv pager startKey hcok (pager.length + 1) i c
        ⟨hend, hi, hnode, hposc, hsuf⟩ (by omega)
    have hnil' : suffixFrom pager i'
        ((StepForward pager (pager.length + 1) c).2).cellnum.toNat = [] :=
      List.eq_nil_of_subset_nil (hnil ▸ hsub')
    have hout' : ((StepForward pager (pager.length + 1) c).2).curNode.entries.length
        ≤ ((StepForward pager (pager.length + 1) c).2).cellnum.toNat := by
      rcases hdisj' with hlt | -
      · exfalso
        have hmem := mem_suffixFrom_head pager i'
          ((StepForward pager (pager.length + 1) c).2).cellnum.toNat
          ((StepForward pager (pager.length + 1) c).2).curNode hinv'.2.2.1 hlt
        rw [hnil'] at hmem
        exact absurd hmem (List.not_mem_nil _)
      · exact length_le_of_suffixFrom_nil pager i' _ _ hinv'.2.2.1 hnil'
    have hge2 : GetEntry (StepForward pager (pager.length + 1) c).2 = .ok (0, 0) := by
      unfold GetEntry
      rw [if_neg (by simp [hinv'.1])]
      rw [List.getD_eq_default _ _ hout']
    simp only [rangeLoop]
    rw [if_pos hguard, hge2]
    exact rangeLoop_stuck pager startKey endKey hcok hpos fuel i'
      (StepForward pager (pager.length + 1) c).2 (acc ++ [(0, 0)]) hinv' hnil'

/-- Every entry in a finished collection loop's output lies in
`[startKey, endKey)`. -/
theorem rangeLoop_bounds (pager : List LeafNode) (startKey endKey : Int)
    (hcok : chainOk pager) :
    ∀ (fuel : Nat) (i : Nat) (c : BTreeCursor) (curEntry : Int × Int)
      (acc entries : List (Int × Int)) (err : Option String),
      cursorInvAt pager startKey i c →
      (c.cellnum.toNat < c.curNode.entries.length ∨
        suffixFrom pager i c.cellnum.toNat = []) →
      GetEntry c = .ok curEntry →
      (∀ e ∈ acc, startKey ≤ e.1 ∧ e.1 < endKey) →
      rangeLoop pager fuel endKey c curEntry acc = some (entries, err) →
      ∀ e ∈ entries, startKey ≤ e.1 ∧ e.1 < endKey
  | 0, i, c, curEntry, acc, entries, err => by
    intro _ _ _ _ hres
    exact absurd hres (by simp [rangeLoop])
  | fuel + 1, i, c, curEntry, acc, entries, err => by
    intro hinv hdisj hge hacc hres
    obtain ⟨hend, hi, hnode, hposc, hsuf⟩ := hinv
    have hcur : curEntry = c.curNode.entries.getD c.cellnum.toNat (0, 0) := by
      unfold GetEntry at hge
      rw [if_neg (by simp [hend])] at hge
      exact (Except.ok.inj hge).symm
    by_cases hguard : endKey > curEntry.1
    · rcases hdisj with hin | hnil
      · -- the cursor's cell is in range: the appended entry is in the suffix
        have hmem : curEntry ∈ suffixFrom pager i c.cellnum.toNat := by
          rw [hcur, List.getD_eq_getElem _ _ hin]
          exact mem_suffixFrom_head pager i c.cellnum.toNat c.curNode hnode hin
        have hstart : startKey ≤ curEntry.1 := hsuf _ hmem
        have hacc2 : ∀ e ∈ acc ++ [curEntry], startKey ≤ e.1 ∧ e.1 < endKey := by
          intro e he
          rcases List.mem_append.mp he with h | h
          · exact hacc e h
          · simp only [List.mem_singleton] at h
            subst h
            exact ⟨hstart, hguard⟩
        have hcond : endKey > curEntry.1 ∧ c.IsEnd = false := by
          refine ⟨hguard, ?_⟩
          unfold BTreeCursor.IsEnd
          exact hend
        simp only [rangeLoop] at hres
        rw [if_pos hcond] at hres
        obtain ⟨i', hle, hinv', hsub', hdisj'⟩ :=
          StepForward_inv pager startKey hcok (pager.length + 1) i c
            ⟨hend, hi, hnode, hposc, hsuf⟩ (by omega)
        cases hge2 : GetEntry (StepForward pager (pager.length + 1) c).2 with
        | error e2 =>
          rw [hge2] at hres
          simp only [Option.some.injEq, Prod.mk.injEq] at hres
          obtain ⟨hentries, -⟩ := hres
          subst hentries
          exact hacc2
        | ok e2 =>
          rw [hge2] at hres
          exact rangeLoop_bounds pager startKey endKey hcok fuel i'
            (StepForward pager (pager.length + 1) c).2 e2 (acc ++ [curEntry])
            entries err hinv' hdisj' hge2 hacc2 hres
      · -- stuck cursor: the loop cannot terminate, contradicting `some`
        have hout : c.curNode.entries.length ≤ c.cellnum.toNat :=
          length_le_of_suffixFrom_nil pager i c.cellnum.toNat c hnode hnil
        have hcur0 : curEntry = (0, 0) := by
          rw [hcur]
          exact List.getD_eq_default _ _ hout
        have hpos0 : 0 < endKey := by
          rw [hcur0] at hguard
          exact hguard
        have hstuck := rangeLoop_stuck pager startKey endKey hcok hpos0 (fuel + 1)
          i c acc ⟨hend, hi, hnode, hposc, hsuf⟩ hnil
        rw [hcur0, hstuck] at hres
        exact absurd hres (by simp)
    · -- the guard fails: the loop returns the accumulator
      have hcond : ¬ (endKey > curEntry.1 ∧ c.IsEnd = false) := fun h => hguard h.1
      simp only [rangeLoop] at hres
      rw [if_neg hcond] at hres
      simp only [Option.some.injEq, Prod.mk.injEq] at hres
      obtain ⟨hentries, -⟩ := hres
      subst hentries
      exact hacc

/-- C9: on a well-formed leaf chain with strictly increasing keys, every
entry in a list returned by `TableFindRange startKey endKey` has key at
least `startKey` and strictly less than `endKey` — the range is half-open,
excluding `endKey`. -/
theorem C9_tableFindRange_halfopen (pager : List LeafNode) (startKey endKey : Int)
    (fuel : Nat) (entries : List (Int × Int)) (err : Option String)
    (hcok : chainOk pager) (hsort : sortedOk pager)
    (hres : TableFindRange pager startKey endKey fuel = some (entries, err)) :
    ∀ e ∈ entries, startKey ≤ e.1 ∧ e.1 < endKey := by
  unfold TableFindRange at hres
  cases hfind : TableFind pager startKey with
  | none =>
    rw [hfind] at hres
    simp only [Option.some.injEq, Prod.mk.injEq] at hres
    obtain ⟨hentries, -⟩ := hres
    subst hentries
    intro e he
    exact absurd he (List.not_mem_nil e)
  | some c =>
    rw [hfind] at hres
    replace hres : (match GetEntry c with
      | Except.error e => some ([], some e)
      | Except.ok curEntry => rangeLoop pager fuel endKey c curEntry [])
        = some (entries, err) := hres
    cases hge : GetEntry c with
    | error e0 =>
      rw [hge] at hres
      simp only [Option.some.injEq, Prod.mk.injEq] at hres
      obtain ⟨hentries, -⟩ := hres
      subst hentries
      intro e he
      exact absurd he (List.not_mem_nil e)
    | ok cur =>
      rw [hge] at hres
      have hend : c.isEnd = false := by
        by_contra h
        rw [Bool.not_eq_false] at h
        unfold GetEntry at hge
        rw [if_pos h] at hge
        exact absurd hge (by simp)
      obtain ⟨hinv, hin⟩ := TableFind_inv pager startKey hsort c hfind hend
      exact rangeLoop_bounds pager startKey endKey hcok fuel
        (findLeafIdx pager startKey) c cur [] entries err hinv (Or.inl hin) hge
        (by intro e he; exact absurd he (List.not_mem_nil e)) hres

/-- A two-leaf chain used by C9's witness. -/
def pagerRangeEx : List LeafNode := [⟨1, [(1, 10), (2, 20)]⟩, ⟨-1, [(3, 30)]⟩]

/-- Witness for C9: the range `[2, 3)` on a two-leaf chain returns exactly
the entry with key 2, and it satisfies the half-open bounds. -/
theorem C9_witness :
    chainOk pagerRangeEx ∧ sortedOk pagerRangeEx ∧
    TableFindRange pagerRangeEx 2 3 10 = some ([(2, 20)], none) ∧
    ∀ e ∈ [((2 : Int), (20 : Int))], (2 : Int) ≤ e.1 ∧ e.1 < 3 :=
  ⟨by unfold chainOk; decide, by unfold sortedOk flatEntries; decide, rfl,
    C9_tableFindRange_halfopen pagerRangeEx 2 3 10 [(2, 20)] none
      (by unfold chainOk; decide) (by unfold sortedOk flatEntries; decide) rfl⟩

end HB
